import Mathlib

/-!
Verification model of the StackMorph backend (`server.js`, two variants).

Strings are modelled as `List Char`.  The JavaScript regular expressions of
the source are embedded as executable scanning functions with the exact
backtracking semantics of the source patterns (leftmost match, greedy
character classes, lazy wildcard blocks and the backreference matching the
captured path literally as a prefix).
-/

set_option maxRecDepth 4000

/-- The character class of JavaScript whitespace (used by the space and
non-space classes and by trim): tab, line feed, vertical tab, form feed,
carriage return, space, NBSP, and the Unicode space separators. -/
def jsSpace (c : Char) : Bool :=
  c.val == 9 || c.val == 10 || c.val == 11 || c.val == 12 || c.val == 13 ||
  c.val == 32 || c.val == 160 || c.val == 0x1680 ||
  (0x2000 ≤ c.val && c.val ≤ 0x200A) ||
  c.val == 0x2028 || c.val == 0x2029 || c.val == 0x202F || c.val == 0x205F ||
  c.val == 0x3000 || c.val == 0xFEFF

/-- The character class of JavaScript word characters: ASCII letters, digits,
underscore. -/
def isWordChar (c : Char) : Bool :=
  ('a' ≤ c && c ≤ 'z') || ('A' ≤ c && c ≤ 'Z') || ('0' ≤ c && c ≤ '9') || c == '_'

/-- Lowercase ASCII letter, the class `[a-z]` of the markdown-fence regex. -/
def isLowerAlpha (c : Char) : Bool :=
  'a' ≤ c && c ≤ 'z'

/-- JavaScript trim: strip whitespace characters from both ends. -/
def trimChars (s : List Char) : List Char :=
  ((s.dropWhile jsSpace).reverse.dropWhile jsSpace).reverse

/-- The literal start-marker text of the whole-project wire format. -/
def startMarker : List Char := "// START_FILE: ".data

/-- The literal text preceding the path in an end-marker line, newline included. -/
def endMarkerPre : List Char := "\n// END_FILE: ".data

/-- A markdown fence delimiter. -/
def tick3 : List Char := "```".data

/-- A newline followed by a closing fence delimiter. -/
def nlTick3 : List Char := "\n```".data

/-- The full end marker for a captured path `p` (what the end-marker literal
followed by the backreference must match). -/
def endMarker (p : List Char) : List Char := endMarkerPre ++ p

/-- Lazy search of an unrestricted wildcard block followed by the literal `m`:
returns the shortest prefix `content` of `s` such that `m` follows it
immediately, together with the remainder after `m`; `none` when `m` occurs
nowhere in `s`. -/
def findEnd (m : List Char) : List Char → Option (List Char × List Char)
  | [] => none
  | c :: cs =>
    if m.isPrefixOf (c :: cs) then some ([], (c :: cs).drop m.length)
    else
      match findEnd m cs with
      | some (content, rest) => some (c :: content, rest)
      | none => none

/-- One attempt of the whole-project file regex of `parseAIResponse`
(start marker, greedy non-space path capture, newline, lazy content capture,
end marker with the path backreference) at the current position: the start
marker must be a prefix, the path capture is the maximal run of non-space
characters (greediness leaves no other choice, as every shorter run is
followed by a non-space character rather than the required newline), the
following character must be a newline, and the content is the shortest block
followed by the end marker for the same path.  Returns the captured path, the
captured content and the text after the match. -/
def matchOne (s : List Char) : Option (List Char × List Char × List Char) :=
  if startMarker.isPrefixOf s then
    let rest := s.drop startMarker.length
    let path := rest.takeWhile (fun c => !jsSpace c)
    if path = [] then none
    else
      match rest.dropWhile (fun c => !jsSpace c) with
      | x :: after =>
        if x = '\n' then
          match findEnd (endMarker path) after with
          | some (content, r) => some (path, content, r)
          | none => none
        else none
      | [] => none
  else none

theorem findEnd_eq_append {m : List Char} :
    ∀ {s content rest : List Char}, findEnd m s = some (content, rest) →
      s = content ++ m ++ rest
  | [], _, _, h => by simp [findEnd] at h
  | c :: cs, content, rest, h => by
    rw [findEnd] at h
    by_cases hp : m.isPrefixOf (c :: cs)
    · simp only [hp, if_true] at h
      obtain ⟨t, ht⟩ := List.isPrefixOf_iff_prefix.mp hp
      injection h with h1
      injection h1 with hc hr
      subst hc
      have hdrop : (c :: cs).drop m.length = t := by
        rw [← ht, List.drop_left]
      rw [← hr, hdrop, ← ht]
      simp
    · simp only [hp, if_false] at h
      cases hfe : findEnd m cs with
      | none => rw [hfe] at h; exact absurd h (by simp)
      | some p =>
        obtain ⟨ct, rt⟩ := p
        rw [hfe] at h
        injection h with h1
        injection h1 with hc hr
        have := findEnd_eq_append hfe
        subst hc hr
        simp [this]

theorem matchOne_rest_length {s p c r : List Char}
    (h : matchOne s = some (p, c, r)) : r.length < s.length := by
  unfold matchOne at h
  by_cases hp : startMarker.isPrefixOf s
  · simp only [hp, if_true] at h
    by_cases hpath : (s.drop startMarker.length).takeWhile (fun c => !jsSpace c) = []
    · simp [hpath] at h
    · simp only [hpath, if_false] at h
      cases hd : (s.drop startMarker.length).dropWhile (fun c => !jsSpace c) with
      | nil => rw [hd] at h; exact absurd h (by simp)
      | cons x after =>
        rw [hd] at h
        dsimp only at h
        by_cases hx : x = '\n'
        · rw [if_pos hx] at h
          cases hfe : findEnd (endMarker ((s.drop startMarker.length).takeWhile
              (fun c => !jsSpace c))) after with
          | none => rw [hfe] at h; exact absurd h (by simp)
          | some pr =>
            obtain ⟨ct, rt⟩ := pr
            rw [hfe] at h
            injection h with h1
            injection h1 with hpp h2
            injection h2 with hcc hrr
            have hafter := findEnd_eq_append hfe
            subst hrr
            have h1 : rt.length ≤ after.length := by
              rw [hafter]; simp; omega
            have h2 : after.length < (s.drop startMarker.length).length := by
              have hsplit := List.takeWhile_append_dropWhile
                (fun c => !jsSpace c) (s.drop startMarker.length)
              have hlen := congrArg List.length hsplit
              rw [hd] at hlen
              simp only [List.length_append, List.length_cons] at hlen
              omega
            have h3 : (s.drop startMarker.length).length ≤ s.length := by
              simp
            omega
        · rw [if_neg hx] at h
          exact absurd h (by simp)
  · simp [hp] at h

/-- The scanning loop of the global regex of `parseAIResponse`: try a match at
the current position; on success record the captured pair and continue right
after the match (where the global regex resumes), otherwise advance one
character. -/
def parseLoop (s : List Char) : List (List Char × List Char) :=
  match h : matchOne s with
  | some (p, c, rest) => (p, c) :: parseLoop rest
  | none =>
    match s with
    | [] => []
    | _ :: xs => parseLoop xs
termination_by s.length
decreasing_by
  · exact matchOne_rest_length h
  · simp

/-- The lazy inner capture of the markdown-fence regex of `parseAIResponse`:
find the shortest prefix `inner` of the body such that a newline and a
closing fence follow and everything after the closing fence is whitespace
(the trailing whitespace-run-plus-end-anchor of the pattern). -/
def findFenceEnd : List Char → Option (List Char)
  | [] => none
  | x :: xs =>
    if nlTick3.isPrefixOf (x :: xs) && ((x :: xs).drop 4).all jsSpace then some []
    else
      match findFenceEnd xs with
      | some inner => some (x :: inner)
      | none => none

/-- The anchored markdown-fence regex of `parseAIResponse` (leading
whitespace, opening fence, optional lowercase language tag, newline, lazy
inner capture, newline, closing fence, trailing whitespace, end anchor):
returns the inner capture when the whole content matches, else `none`.
Both anchored greedy runs (leading whitespace, language tag) are forced:
shortening either leaves a character that cannot match what follows. -/
def matchFence (s : List Char) : Option (List Char) :=
  let s1 := s.dropWhile jsSpace
  if tick3.isPrefixOf s1 then
    let s2 := s1.drop 3
    let tag := s2.takeWhile isLowerAlpha
    match s2.dropWhile isLowerAlpha with
    | x :: body => if x = '\n' then findFenceEnd body else none
    | [] => none
  else none

/-- What `parseAIResponse` pushes for one captured block: strip a markdown
fence when the whole content matches the fence regex, then trim. -/
def processContent (c : List Char) : List Char :=
  trimChars (match matchFence c with
             | some inner => inner
             | none => c)

/-- An entry of the array returned by `parseAIResponse`. -/
structure ConvertedFile where
  path : List Char
  content : List Char
deriving DecidableEq, Repr

/-- The whole-project response parser `parseAIResponse` of `server.js`:
scan the response text for delimited blocks, strip markdown fences from the
captured contents, trim, and return the (path, content) records in match
order. -/
def parseAIResponse (responseText : List Char) : List ConvertedFile :=
  (parseLoop responseText).map (fun pc => ⟨pc.1, processContent pc.2⟩)

theorem parseLoop_nil : parseLoop [] = [] := by
  rw [parseLoop]
  split
  · rename_i p c rest h'
    have h : matchOne [] = none := by decide
    rw [h] at h'
    simp at h'
  · rfl

theorem parseLoop_eq_some {s p c rest : List Char}
    (h : matchOne s = some (p, c, rest)) :
    parseLoop s = (p, c) :: parseLoop rest := by
  rw [parseLoop]
  split
  · rename_i p' c' rest' h'
    rw [h] at h'
    injection h' with h1
    injection h1 with hp h2
    injection h2 with hc hr
    subst hp hc hr
    rfl
  · rename_i h'
    rw [h] at h'
    simp at h'

theorem parseLoop_eq_none {x : Char} {xs : List Char}
    (h : matchOne (x :: xs) = none) :
    parseLoop (x :: xs) = parseLoop xs := by
  rw [parseLoop]
  split
  · rename_i p' c' rest' h'
    rw [h] at h'
    simp at h'
  · rfl

/-- Greedy search for the final fence literal of the per-file code-block
regex: the content capture is greedy, so among all positions of `s` at which
the closing fence literal can start, the rightmost is chosen; returns the
(possibly empty) text before it, or `none` when no position works. -/
def lastTickSplit : List Char → Option (List Char)
  | [] => none
  | x :: xs =>
    match lastTickSplit xs with
    | some t => some (x :: t)
    | none => if tick3.isPrefixOf (x :: xs) then some [] else none

/-- The greedy nonempty content capture of the per-file regex followed by the
closing fence: the rightmost closing-fence position at least one character in,
returning the captured content. -/
def greedyContent : List Char → Option (List Char)
  | [] => none
  | x :: xs => (lastTickSplit xs).map (fun t => x :: t)

/-- One attempt of the per-file code-block regex of `parseCodeFromResponse`
(opening fence, optional word-run-plus-newline language tag, greedy nonempty
content capture, closing fence, no anchors) at the current position.  The
optional tag group is greedy: it participates whenever a nonempty word run
followed by a newline is present, and is given up only if the rest of the
pattern cannot match afterwards. -/
def matchCodeAt (s : List Char) : Option (List Char) :=
  if tick3.isPrefixOf s then
    let s2 := s.drop 3
    let w := s2.takeWhile isWordChar
    match w, s2.dropWhile isWordChar with
    | _ :: _, x :: s3 =>
      if x = '\n' then
        match greedyContent s3 with
        | some g => some g
        | none => greedyContent s2
      else greedyContent s2
    | _, _ => greedyContent s2
  else none

/-- First-match scan of the unanchored per-file code-block regex: try each
position from the left, returning the first successful content capture. -/
def findCode : List Char → Option (List Char)
  | [] => none
  | x :: xs =>
    match matchCodeAt (x :: xs) with
    | some g => some g
    | none => findCode xs

/-- The per-file response parser `parseCodeFromResponse` of `server.js`:
return the trimmed content capture of the first code-block match, or the
trimmed response text when the regex does not match (the capture is the
nonempty-wildcard class, so a successful capture is never the empty string
and the truthiness test on it only rules out the no-match case). -/
def parseCodeFromResponse (text : List Char) : List Char :=
  match findCode text with
  | some inner => trimChars inner
  | none => trimChars text

/-- Node `path.extname` (posix), as used on the extracted file paths: the
substring of the last path component from its final dot, except that a dot
in first position, a component equal to two dots, or a dotless component
give the empty extension. -/
def extname (p : List Char) : List Char :=
  let q := p.reverse.dropWhile (fun c => c = '/')
  let compR := q.takeWhile (fun c => c ≠ '/')
  let tailR := compR.takeWhile (fun c => c ≠ '.')
  if tailR.length = compR.length then []
  else if tailR.length + 1 = compR.length then []
  else if compR = ['.', '.'] then []
  else '.' :: tailR.reverse

/-- Node `path.basename` (posix): the last path component, ignoring trailing
separators. -/
def basename (p : List Char) : List Char :=
  ((p.reverse.dropWhile (fun c => c = '/')).takeWhile (fun c => c ≠ '/')).reverse

/-- The `CODE_EXTENSIONS` allow-list of `server.js`. -/
def CODE_EXTENSIONS : List (List Char) :=
  [".js".data, ".jsx".data, ".ts".data, ".tsx".data, ".vue".data, ".svelte".data,
   ".html".data, ".css".data, ".scss".data, ".json".data, ".md".data]

/-- The filter `CODE_EXTENSIONS.has(path.extname(file))` applied to every
discovered path. -/
def isCodeFile (p : List Char) : Bool :=
  CODE_EXTENSIONS.contains (extname p)

/-- A directory listing, in listing order: each entry is a regular file or a
subdirectory with its own listing.  (Symbolic links and special files are out
of scope, as in the spec.) -/
inductive FSEntries where
  | nil : FSEntries
  | consFile : List Char → FSEntries → FSEntries
  | consDir : List Char → FSEntries → FSEntries → FSEntries
deriving DecidableEq, Repr

/-- `path.join(dir, name)` for an ordinary name: concatenation with a
separator. -/
def pathJoin (dir name : List Char) : List Char := dir ++ '/' :: name

/-- `getAllFilePaths` of `server.js` over a directory listing: push every
regular file's path; recurse into a subdirectory unless it is named
`node_modules` or `.git`; concatenate results in listing order. -/
def getAllFilePaths (dir : List Char) : FSEntries → List (List Char)
  | .nil => []
  | .consFile n rest => pathJoin dir n :: getAllFilePaths dir rest
  | .consDir n children rest =>
    (if n ≠ "node_modules".data ∧ n ≠ ".git".data then
      getAllFilePaths (pathJoin dir n) children
    else []) ++ getAllFilePaths dir rest

/-- A regular file of the extracted project tree: its workspace-relative
posix path and its text content. -/
structure SrcFile where
  path : List Char
  content : List Char
deriving DecidableEq, Repr

/-- One entry of the whole-project prompt context: the relative path header
followed by the file content in an untagged fence. -/
def contextEntry (f : SrcFile) : List Char :=
  "File: ".data ++ f.path ++ "\n```\n".data ++ f.content ++ "\n```".data

/-- The `projectContext` array of the whole-project route: one entry per
discovered file with an allow-listed extension and non-blank content, in
discovery order. -/
def projectContext (files : List SrcFile) : List (List Char) :=
  (files.filter (fun f => isCodeFile f.path)).filterMap
    (fun f => if trimChars f.content = [] then none else some (contextEntry f))

/-- `fullProjectCode`: the context entries joined by the fixed delimiter. -/
def fullProjectCode (files : List SrcFile) : List Char :=
  List.intercalate "\n\n---\n\n".data (projectContext files)

/-- The whole-project instruction template, parameterized by the target stack
and the concatenated project source (the template literal of the source, with
its interpolation slots made explicit). -/
def wholeProjectPrompt (ts : List Char) (files : List SrcFile) : List Char :=
  "\nYou are an expert AI software engineer. Your task is to perform a complete migration of the provided source code to a new, runnable project using ".data
  ++ ts ++
  ".\n\nYou will be given the complete source code for a project, with each file clearly demarcated.\n\n**Your goal is to output a complete, runnable ".data
  ++ ts ++
  " project, not just a 1-to-1 file conversion.**\n\n**MANDATORY INSTRUCTIONS:**\n\n1.  **Convert Logic:** Convert all source files to be idiomatic for ".data
  ++ ts ++
  ", preserving all logic and functionality.\n2.  **Create Folder Structure:** Organize all converted files into a standard, professional folder structure for a modern ".data
  ++ ts ++
  " project (e.g., for Vue/React, use a 'src' directory with 'components', 'assets', etc.).\n3.  **Generate 'package.json':** Create a new 'package.json' file. It must include:\n    * The correct main dependency (e.g., \"react\", \"vue\", \"svelte\").\n    * The necessary build tools as 'devDependencies' (e.g., \"vite\" and its plugins).\n    * Script commands for \"dev\" and \"build\".\n4.  **Generate Build Config:** Create any necessary build configuration files (e.g., 'vite.config.js').\n5.  **Generate 'index.html':** Create a new root 'index.html' file to load the new ".data
  ++ ts ++
  " application.\n6.  **Generate 'README.md':** Create a new 'README.md' file that includes:\n    * A title for the converted project.\n    * Simple setup instructions: 'npm install' and 'npm run dev'.\n7.  **Handle Imports:** Ensure all file imports/exports are updated to reflect the new file structure and syntax.\n\n**OUTPUT FORMAT:**\n- The output must *only* be the raw code for the new files.\n- Do not include *any* explanations or introductory text.\n- You *must* format your response as a series of files, using the following exact format for *every* file (including 'package.json', 'README.md', etc.):\n\n// START_FILE: path/to/new/file.js\n... (all the content for this file) ...\n// END_FILE: path/to/new/file.js\n\n---\n**ORIGINAL PROJECT SOURCE CODE:**\n---\n".data
  ++ fullProjectCode files ++
  "\n---\n    ".data

/-- The per-file instruction template of the second variant, parameterized by
the target stack, the file's base name and its original content. -/
def perFilePrompt (ts : List Char) (f : SrcFile) : List Char :=
  "You are an expert programmer specializing in frontend framework migration. Convert the following code snippet to ".data
  ++ ts ++
  ".\n        - Preserve the original logic, functionality, and file structure.\n        - Use modern best practices and idiomatic code for ".data
  ++ ts ++
  ".\n        - Ensure the converted code is fully functional and equivalent to the original.\n        - The output must be ONLY the raw code for the new file, without any explanations, introductions, or markdown code blocks.\n        \n        Original file content (".data
  ++ basename f.path ++
  "):\n        ---\n        ".data
  ++ f.content ++
  "\n        ---\n        \n        Converted ".data
  ++ ts ++
  " code:".data

/-- The body of the per-file conversion loop for one discovered code file:
blank files are skipped; otherwise the model is invoked on the per-file
prompt; on success the parsed code replaces the file content on disk; a
thrown invocation error is caught and the original content kept. -/
def processFilePerFile (invoke : List Char → Except Unit (List Char))
    (ts : List Char) (f : SrcFile) : SrcFile :=
  if trimChars f.content = [] then f
  else
    match invoke (perFilePrompt ts f) with
    | .ok resp => { f with content := parseCodeFromResponse resp }
    | .error _ => f

/-- The whole per-file conversion pass over the extracted tree.  The loop of
the source mutates each allow-listed file in place on disk and the archive is
then packed from the tree, so the resulting tree is the pointwise image of
the original: allow-listed files go through the loop body, all others are
untouched. -/
def convertTree (invoke : List Char → Except Unit (List Char))
    (ts : List Char) (files : List SrcFile) : List SrcFile :=
  files.map (fun f => if isCodeFile f.path then processFilePerFile invoke ts f else f)

/-- The prompts actually sent by the per-file loop, in order: one per
allow-listed, non-blank file. -/
def perFilePromptsSent (ts : List Char) (files : List SrcFile) : List (List Char) :=
  (files.filter (fun f => isCodeFile f.path)).filterMap
    (fun f => if trimChars f.content = [] then none else some (perFilePrompt ts f))

/-- An HTTP response of the `/convert` route: a JSON error body with a
status, or a zip archive (built from parsed converted files in the
whole-project variant, from the mutated tree in the per-file variant). -/
inductive Response where
  | errorJson : Nat → String → Response
  | zipArchive : List ConvertedFile → Response
  | zipTree : List SrcFile → Response
deriving DecidableEq, Repr

/-- What a request leaves behind: the response sent, whether the scratch
workspace directory was ever created, and whether it still exists when the
handler finishes. -/
structure HandlerResult where
  resp : Response
  wsCreated : Bool
  wsExistsAfter : Bool
deriving DecidableEq, Repr

/-- The cleanup of the `finally` block: remove the workspace directory
recursively when it exists. -/
def finallyCleanup (wsExists : Bool) : Bool :=
  if wsExists then false else wsExists

/-- The whole-project `/convert` handler.  Validation runs before the
workspace path is used: missing credential, missing upload and missing
target stack return early.  Inside the `try`, extraction either throws (the
`Except.error` carries whether the directory had been created by then) or
yields the extracted tree; the model call on the built prompt either throws
or yields response text; zero parsed files is the unparsable-response
failure; otherwise the parsed files are archived.  The `finally` cleanup
runs on every path through the `try`. -/
def wholeProjectHandler (hasApiKey hasUpload : Bool) (targetStack : Option (List Char))
    (extractResult : Except Bool (List SrcFile))
    (model : List Char → Except Unit (List Char)) : HandlerResult :=
  if !hasApiKey then
    ⟨.errorJson 500 "Server is not configured with a Gemini API key.", false, false⟩
  else if !hasUpload then
    ⟨.errorJson 400 "No .zip file was uploaded under the \"sourceCode\" field.", false, false⟩
  else
    match targetStack with
    | none => ⟨.errorJson 400 "The \"targetStack\" field is required.", false, false⟩
    | some ts =>
      let tryOutcome : Response × Bool :=
        match extractResult with
        | .error created =>
          (.errorJson 500 "Failed to convert project due to a server error.", created)
        | .ok files =>
          match model (wholeProjectPrompt ts files) with
          | .error _ =>
            (.errorJson 500 "Failed to convert project due to a server error.", true)
          | .ok aiResponseText =>
            let convertedFiles := parseAIResponse aiResponseText
            if convertedFiles.length = 0 then
              (.errorJson 500 "Conversion failed: The AI returned an unparsable response.", true)
            else
              (.zipArchive convertedFiles, true)
      ⟨tryOutcome.1, tryOutcome.2, finallyCleanup tryOutcome.2⟩

/-- The per-file `/convert` handler of the second variant: same eager
validation (plus the MIME-type check), then extraction, the sequential
per-file conversion loop with its per-file catch, and the repack of the
whole mutated tree; the `finally` cleanup runs on every path through the
`try`. -/
def perFileHandler (hasApiKey hasUpload : Bool) (targetStack : Option (List Char))
    (mimetypeOk : Bool) (extractResult : Except Bool (List SrcFile))
    (invoke : List Char → Except Unit (List Char)) : HandlerResult :=
  if !hasApiKey then
    ⟨.errorJson 500 "Server is not configured with a Gemini API key.", false, false⟩
  else if !hasUpload then
    ⟨.errorJson 400 "No .zip file was uploaded under the \"projectZip\" field.", false, false⟩
  else
    match targetStack with
    | none => ⟨.errorJson 400 "The \"targetStack\" field is required.", false, false⟩
    | some ts =>
      if !mimetypeOk then
        ⟨.errorJson 400 "Invalid file type. Please upload a .zip file.", false, false⟩
      else
        let tryOutcome : Response × Bool :=
          match extractResult with
          | .error created =>
            (.errorJson 500 "Failed to convert project due to a server error.", created)
          | .ok files =>
            (.zipTree (convertTree invoke ts files), true)
        ⟨tryOutcome.1, tryOutcome.2, finallyCleanup tryOutcome.2⟩

/-! ### Generic helper lemmas about markers inside concatenations -/

theorem prefix_of_append_left {m a b : List Char} (h : m <+: a ++ b)
    (hlen : m.length ≤ a.length) : m <+: a := by
  rw [List.prefix_iff_eq_take] at h ⊢
  exact h.trans (List.take_append_of_le_length hlen)

/-- A marker whose head character occurs nowhere else in it cannot start
strictly inside `a` and overlap its own occurrence right after `a`. -/
theorem span_clash {ch : Char} {ms a r : List Char}
    (hch : ch ∉ ms) (ha : a ≠ []) (hlen : a.length < (ch :: ms).length)
    (hpre : (ch :: ms) <+: a ++ ((ch :: ms) ++ r)) : False := by
  obtain ⟨t, ht⟩ := hpre
  have h1 : ((ch :: ms) ++ t)[a.length]? = (ch :: ms)[a.length]? :=
    List.getElem?_append_left hlen
  have h2 : (a ++ ((ch :: ms) ++ r))[a.length]? = some ch := by
    rw [List.getElem?_append_right (Nat.le_refl _)]
    simp
  rw [ht, h2] at h1
  have hpos : 0 < a.length := List.length_pos.mpr ha
  have h3 : (ch :: ms)[a.length]? = ms[a.length - 1]? := by
    cases hn : a.length with
    | zero => omega
    | succ n => simp
  rw [h3] at h1
  have : ch ∈ ms := by
    have := List.getElem?_eq_some_iff.mp h1.symm
    obtain ⟨hlt, hEq⟩ := this
    exact hEq ▸ List.getElem_mem hlt
  exact hch this

/-- The start marker cannot overlap itself: no nonempty strict suffix of it
is one of its prefixes. -/
theorem startMarker_no_overlap :
    ∀ k : Nat, k < startMarker.length → 0 < k →
      ¬ ((startMarker.drop k) <+: startMarker) := by decide

/-- The start marker cannot begin strictly inside `a` when a genuine
occurrence follows `a` immediately. -/
theorem span_startMarker {a r : List Char} (ha : a ≠ [])
    (hlen : a.length < startMarker.length)
    (hpre : startMarker <+: a ++ (startMarker ++ r)) : False := by
  obtain ⟨t, ht⟩ := hpre
  have hd1 : (startMarker ++ t).drop a.length = startMarker.drop a.length ++ t :=
    List.drop_append_of_le_length (Nat.le_of_lt hlen)
  have hd2 : (a ++ (startMarker ++ r)).drop a.length = startMarker ++ r := by
    have := List.drop_left a (startMarker ++ r)
    exact this
  have heq : startMarker.drop a.length ++ t = startMarker ++ r := by
    rw [← hd1, ht, hd2]
  have hpre2 : startMarker.drop a.length <+: startMarker ++ r := ⟨t, heq⟩
  have hpre3 : startMarker.drop a.length <+: startMarker :=
    prefix_of_append_left hpre2 (by simp)
  exact startMarker_no_overlap a.length hlen (List.length_pos.mpr ha) hpre3

/-- Completeness of the lazy end-marker search: when the marker starts with a
character that occurs nowhere else in it and does not occur inside the
content, the first occurrence is the one right after the content. -/
theorem findEnd_append {ms : List Char} (hnl : '\n' ∉ ms) :
    ∀ {c r : List Char}, ¬ (('\n' :: ms) <:+: c) →
      findEnd ('\n' :: ms) (c ++ ('\n' :: ms) ++ r) = some (c, r)
  | [], r, _ => by
    have : ([] : List Char) ++ ('\n' :: ms) ++ r = '\n' :: (ms ++ r) := by simp
    rw [this, findEnd]
    have hp : ('\n' :: ms).isPrefixOf ('\n' :: (ms ++ r)) = true := by
      rw [ List.isPrefixOf_iff_prefix]
      exact ⟨r, by simp⟩
    rw [if_pos hp]
    have : ('\n' :: (ms ++ r)).drop ('\n' :: ms).length = r := by
      have := List.drop_left ('\n' :: ms) r
      simpa using this
    rw [this]
  | x :: c', r, hinf => by
    have hshape : (x :: c') ++ ('\n' :: ms) ++ r = x :: (c' ++ ('\n' :: ms) ++ r) := by simp
    rw [hshape, findEnd]
    have hnp : ('\n' :: ms).isPrefixOf (x :: (c' ++ ('\n' :: ms) ++ r)) = false := by
      rw [Bool.eq_false_iff]
      intro hp
      have hpre : ('\n' :: ms) <+: (x :: c') ++ (('\n' :: ms) ++ r) := by
        rw [ List.isPrefixOf_iff_prefix] at hp
        have : x :: (c' ++ ('\n' :: ms) ++ r) = (x :: c') ++ (('\n' :: ms) ++ r) := by simp
        rw [this] at hp
        exact hp
      by_cases hlen : ('\n' :: ms).length ≤ (x :: c').length
      · exact hinf (prefix_of_append_left hpre hlen).isInfix
      · exact span_clash hnl (by simp) (by omega) hpre
    simp only [hnp, Bool.false_eq_true, if_false]
    have hrec := @findEnd_append ms hnl c' r
      (fun h => hinf ( List.infix_cons h))
    rw [hrec]

theorem matchOne_eq_none_of_no_marker {s : List Char}
    (h : ¬ (startMarker <+: s)) : matchOne s = none := by
  unfold matchOne
  rw [if_neg (by simpa [ List.isPrefixOf_iff_prefix] using h)]

/-- Text containing no start marker at all parses to nothing. -/
theorem parseLoop_no_marker : ∀ {s : List Char}, ¬ (startMarker <:+: s) →
    parseLoop s = []
  | [], _ => parseLoop_nil
  | x :: xs, hinf => by
    have hm : matchOne (x :: xs) = none :=
      matchOne_eq_none_of_no_marker (fun hp => hinf hp.isInfix)
    rw [parseLoop_eq_none hm]
    exact parseLoop_no_marker (fun h => hinf ( List.infix_cons h))

/-- Junk that contains no start marker is skipped by the scanning loop when a
genuine marker occurrence follows it. -/
theorem parseLoop_skip {j r : List Char} (hj : ¬ (startMarker <:+: j))
    (hr : startMarker <+: r) : parseLoop (j ++ r) = parseLoop r := by
  induction j with
  | nil => simp
  | cons x j' ih =>
    have hnm : ¬ (startMarker <+: (x :: j') ++ r) := by
      intro hpre
      by_cases hlen : startMarker.length ≤ (x :: j').length
      · exact hj (prefix_of_append_left hpre hlen).isInfix
      · obtain ⟨X, hX⟩ := hr
        rw [← hX] at hpre
        have hpre' : startMarker <+: (x :: j') ++ (startMarker ++ X) := by
          simpa [List.append_assoc] using hpre
        exact span_startMarker (by simp) (by omega) hpre'
    have hm : matchOne ((x :: j') ++ r) = none := matchOne_eq_none_of_no_marker hnm
    have hshape : (x :: j') ++ r = x :: (j' ++ r) := by simp
    rw [hshape] at hm
    rw [hshape, parseLoop_eq_none hm]
    exact ih (fun h => hj ( List.infix_cons h))

/-- A well-formed delimited block of the wire format for path `p` and
content `c`. -/
def renderBlock (p c : List Char) : List Char :=
  startMarker ++ p ++ ('\n' :: c) ++ endMarker p

theorem endMarker_eq_cons (p : List Char) :
    endMarker p = '\n' :: ("// END_FILE: ".data ++ p) := by
  have h : endMarkerPre = '\n' :: "// END_FILE: ".data := by decide
  rw [endMarker, h]
  rfl

/-- A well-formed block at the scan position is matched exactly: the path is
the captured path and the content between the delimiter lines is the
captured content, with scanning resuming right after the block. -/
theorem matchOne_block {p c r : List Char} (hp : p ≠ [])
    (hps : ∀ a ∈ p, jsSpace a = false)
    (hc : ¬ (endMarker p <:+: c)) :
    matchOne (renderBlock p c ++ r) = some (p, c, r) := by
  have hshape : renderBlock p c ++ r
      = startMarker ++ (p ++ '\n' :: (c ++ (endMarker p ++ r))) := by
    simp [renderBlock, List.append_assoc]
  rw [hshape]
  unfold matchOne
  have hpre : startMarker.isPrefixOf
      (startMarker ++ (p ++ '\n' :: (c ++ (endMarker p ++ r)))) = true := by
    rw [ List.isPrefixOf_iff_prefix]
    exact ⟨_, rfl⟩
  rw [if_pos hpre]
  have hdrop : (startMarker ++ (p ++ '\n' :: (c ++ (endMarker p ++ r)))).drop
      startMarker.length = p ++ '\n' :: (c ++ (endMarker p ++ r)) :=
    List.drop_left _ _
  rw [hdrop]
  have hpall : ∀ a ∈ p, (!jsSpace a) = true := by
    intro a ha; rw [hps a ha]; rfl
  have hnl : (!jsSpace '\n') = false := by decide
  have htw : (p ++ '\n' :: (c ++ (endMarker p ++ r))).takeWhile
      (fun ch => !jsSpace ch) = p := by
    rw [List.takeWhile_append_of_pos hpall, List.takeWhile_cons]
    simp [hnl]
  have hdw : (p ++ '\n' :: (c ++ (endMarker p ++ r))).dropWhile
      (fun ch => !jsSpace ch) = '\n' :: (c ++ (endMarker p ++ r)) := by
    rw [List.dropWhile_append_of_pos hpall, List.dropWhile_cons]
    simp [hnl]
  dsimp only
  rw [htw, hdw, if_neg hp]
  dsimp only
  rw [if_pos rfl]
  have hnl2 : '\n' ∉ ("// END_FILE: ".data ++ p) := by
    intro hmem
    rcases List.mem_append.mp hmem with h1 | h2
    · exact absurd h1 (by decide)
    · have := hps '\n' h2
      exact absurd this (by decide)
  have hc' : ¬ (('\n' :: ("// END_FILE: ".data ++ p)) <:+: c) := by
    rw [← endMarker_eq_cons]; exact hc
  have hfe := @findEnd_append ("// END_FILE: ".data ++ p) hnl2 c r hc'
  rw [← endMarker_eq_cons] at hfe
  have hassoc : c ++ endMarker p ++ r = c ++ (endMarker p ++ r) :=
    List.append_assoc _ _ _
  rw [hassoc] at hfe
  rw [hfe]

/-- One well-formed delimited block of a response text, together with the
filler text preceding it (prose, blank lines, output of other kinds). -/
structure BlockSpec where
  junk : List Char
  path : List Char
  content : List Char
deriving DecidableEq, Repr

/-- A response text containing exactly the given well-formed blocks in
order: each block preceded by its filler and a trailing filler at the end. -/
def renderResponse : List BlockSpec → List Char → List Char
  | [], tail => tail
  | b :: rest, tail => b.junk ++ (renderBlock b.path b.content ++ renderResponse rest tail)

/-- Well-formedness of a response text built from `BlockSpec`s: filler never
contains the start marker, paths are nonempty and whitespace-free, and no
content contains its own end-marker line (the non-greedy caveat of the
format). -/
def WellFormedBlocks (L : List BlockSpec) : Prop :=
  ∀ b ∈ L, ¬ (startMarker <:+: b.junk) ∧ b.path ≠ [] ∧
    (∀ a ∈ b.path, jsSpace a = false) ∧ ¬ (endMarker b.path <:+: b.content)

instance (L : List BlockSpec) : Decidable (WellFormedBlocks L) := by
  unfold WellFormedBlocks
  infer_instance

theorem parseLoop_render :
    ∀ (L : List BlockSpec) (tail : List Char), WellFormedBlocks L →
      ¬ (startMarker <:+: tail) →
      parseLoop (renderResponse L tail) = L.map (fun b => (b.path, b.content))
  | [], tail, _, htail => by
    simpa [renderResponse] using parseLoop_no_marker htail
  | b :: L', tail, hL, htail => by
    obtain ⟨hj, hp, hps, hc⟩ := hL _ (List.mem_cons_self _ _)
    have hpre : startMarker <+: renderBlock b.path b.content ++ renderResponse L' tail := by
      refine ⟨b.path ++ ('\n' :: b.content) ++ endMarker b.path ++ renderResponse L' tail, ?_⟩
      simp [renderBlock, List.append_assoc]
    rw [renderResponse, parseLoop_skip hj hpre,
      parseLoop_eq_some (matchOne_block hp hps hc)]
    exact congrArg (List.cons (b.path, b.content))
      (parseLoop_render L' tail (fun x hx => hL x (List.mem_cons_of_mem _ hx)) htail)

/-- Claim C1: for every response text containing N well-formed delimited
blocks (start line, content, end line with the identical path) with N
distinct paths, `parseAIResponse` returns exactly N ConvertedFile
(path, content) entries, in the order the blocks occur in the text. -/
theorem spec_wholeProject_parser_n_blocks (L : List BlockSpec) (tail : List Char)
    (hwf : WellFormedBlocks L)
    (htail : ¬ (startMarker <:+: tail))
    (hdistinct : (L.map BlockSpec.path).Pairwise (· ≠ ·)) :
    parseAIResponse (renderResponse L tail)
      = L.map (fun b => ⟨b.path, processContent b.content⟩) ∧
    (parseAIResponse (renderResponse L tail)).length = L.length ∧
    (parseAIResponse (renderResponse L tail)).map ConvertedFile.path
      = L.map BlockSpec.path := by
  have h := parseLoop_render L tail hwf htail
  rw [parseAIResponse, h]
  refine ⟨by simp, by simp, by simp [Function.comp]⟩

/-- Concrete instance of claim C1: two well-formed blocks with distinct
paths, prose filler before, between and after, parse to exactly those two
entries in order. -/
theorem spec_wholeProject_parser_n_blocks_witness :
    WellFormedBlocks
      [⟨"Here is the project:\n".data, "src/App.vue".data, "<template></template>".data⟩,
       ⟨"\n\n".data, "package.json".data, ". name .".data⟩] ∧
    parseAIResponse (renderResponse
      [⟨"Here is the project:\n".data, "src/App.vue".data, "<template></template>".data⟩,
       ⟨"\n\n".data, "package.json".data, ". name .".data⟩] "\nDone.".data)
      = [⟨"src/App.vue".data, processContent "<template></template>".data⟩,
         ⟨"package.json".data, processContent ". name .".data⟩] :=
  ⟨by decide,
   (spec_wholeProject_parser_n_blocks _ _ (by decide) (by decide) (by decide)).1⟩

theorem matchOne_some_shape {s p c r : List Char}
    (h : matchOne s = some (p, c, r)) :
    s = startMarker ++ p ++ ('\n' :: c) ++ endMarker p ++ r ∧
    p ≠ [] ∧ (∀ a ∈ p, jsSpace a = false) := by
  unfold matchOne at h
  by_cases hp : startMarker.isPrefixOf s
  · simp only [hp, if_true] at h
    obtain ⟨t, ht⟩ := List.isPrefixOf_iff_prefix.mp hp
    have hts : s.drop startMarker.length = t := by rw [← ht, List.drop_left]
    rw [hts] at h
    by_cases hpath : t.takeWhile (fun c => !jsSpace c) = []
    · simp [hpath] at h
    · simp only [hpath, if_false] at h
      cases hd : t.dropWhile (fun c => !jsSpace c) with
      | nil => rw [hd] at h; exact absurd h (by simp)
      | cons x after =>
        rw [hd] at h
        dsimp only at h
        by_cases hx : x = '\n'
        · rw [if_pos hx] at h
          cases hfe : findEnd (endMarker (t.takeWhile (fun c => !jsSpace c))) after with
          | none => rw [hfe] at h; exact absurd h (by simp)
          | some pr =>
            obtain ⟨ct, rt⟩ := pr
            rw [hfe] at h
            injection h with h1
            injection h1 with hpp h2
            injection h2 with hcc hrr
            have hps2 : ∀ a ∈ p, jsSpace a = false := by
              intro a ha
              rw [← hpp] at ha
              simpa using List.mem_takeWhile_imp ha
            have hpn : p ≠ [] := by
              rw [← hpp]; exact hpath
            have hafter := findEnd_eq_append hfe
            rw [hpp] at hafter
            have hsplit : t = p ++ (x :: after) := by
              have h0 := List.takeWhile_append_dropWhile
                (fun c => !jsSpace c) t
              rw [hd, hpp] at h0
              exact h0.symm
            refine ⟨?_, hpn, hps2⟩
            rw [← ht, hsplit, hx, hafter, hcc, hrr]
            simp [List.append_assoc]
        · rw [if_neg hx] at h
          exact absurd h (by simp)
  · simp [hp] at h

/-- The text contains a (well-formed up to laziness) delimited block: a start
marker followed by a nonempty whitespace-free path, a newline, some middle
text, and the end-marker line for the identical path. -/
def HasDelimitedBlock (text : List Char) : Prop :=
  ∃ pre p mid post, p ≠ [] ∧ (∀ a ∈ p, jsSpace a = false) ∧
    text = pre ++ startMarker ++ p ++ ('\n' :: mid) ++ endMarker p ++ post

theorem hasDelimitedBlock_of_parseLoop_ne_nil :
    ∀ {text : List Char}, parseLoop text ≠ [] → HasDelimitedBlock text
  | [], h => absurd parseLoop_nil h
  | x :: xs, h => by
    cases hm : matchOne (x :: xs) with
    | some v =>
      obtain ⟨p, c, r⟩ := v
      obtain ⟨hshape, hp, hps⟩ := matchOne_some_shape hm
      exact ⟨[], p, c, r, hp, hps, by rw [hshape]; simp [List.append_assoc]⟩
    | none =>
      rw [parseLoop_eq_none hm] at h
      obtain ⟨pre, p, mid, post, hp, hps, hshape⟩ :=
        hasDelimitedBlock_of_parseLoop_ne_nil h
      exact ⟨x :: pre, p, mid, post, hp, hps, by rw [hshape]; simp⟩

theorem noBlock_of_no_marker {text : List Char} (h : ¬ (startMarker <:+: text)) :
    ¬ HasDelimitedBlock text := by
  rintro ⟨pre, p, mid, post, hp, hps, hshape⟩
  apply h
  rw [hshape]
  exact ⟨pre, p ++ ('\n' :: mid) ++ endMarker p ++ post, by simp [List.append_assoc]⟩

/-- Claim C2: in whole-project mode, for every response text containing zero
well-formed delimited blocks the parser returns the empty sequence (it is
total and does not throw), and the request handler then responds with HTTP
500 and the distinct unparsable-response JSON message; no archive body is
returned. -/
theorem spec_unparsable_response (aiText : List Char)
    (hnb : ¬ HasDelimitedBlock aiText) :
    parseAIResponse aiText = [] ∧
    ∀ (ts : List Char) (files : List SrcFile),
      (wholeProjectHandler true true (some ts) (.ok files)
        (fun _ => .ok aiText)).resp
        = .errorJson 500 "Conversion failed: The AI returned an unparsable response." ∧
      ∀ fs, (wholeProjectHandler true true (some ts) (.ok files)
        (fun _ => .ok aiText)).resp ≠ .zipArchive fs := by
  have hempty : parseAIResponse aiText = [] := by
    by_contra hne
    have hloop : parseLoop aiText ≠ [] := by
      intro h0
      apply hne
      rw [parseAIResponse, h0]
      rfl
    exact hnb (hasDelimitedBlock_of_parseLoop_ne_nil hloop)
  refine ⟨hempty, ?_⟩
  intro ts files
  constructor
  · simp [wholeProjectHandler, hempty]
  · intro fs
    simp [wholeProjectHandler, hempty]

/-- Concrete instance of claim C2: a pure-prose model reply parses to zero
files and the handler answers with the unparsable-response 500 error. -/
theorem spec_unparsable_response_witness :
    parseAIResponse "Sorry, I cannot help with that.".data = [] ∧
    (wholeProjectHandler true true (some "Vue".data) (.ok [])
      (fun _ => .ok "Sorry, I cannot help with that.".data)).resp
      = .errorJson 500 "Conversion failed: The AI returned an unparsable response." := by
  have hnb : ¬ HasDelimitedBlock "Sorry, I cannot help with that.".data :=
    noBlock_of_no_marker (by decide)
  have h := spec_unparsable_response _ hnb
  exact ⟨h.1, (h.2 "Vue".data []).1⟩

theorem nlTick3_eq_cons : nlTick3 = '\n' :: tick3 := by decide

/-- Completeness of the lazy inner-capture search: with all-whitespace text
after the closing fence and no closing-fence line inside the inner text, the
capture is exactly the inner text. -/
theorem findFenceEnd_append {w2 : List Char} (hw2 : w2.all jsSpace = true) :
    ∀ {inner : List Char}, ¬ (nlTick3 <:+: inner) →
      findFenceEnd (inner ++ nlTick3 ++ w2) = some inner
  | [], _ => by
    have hshape : ([] : List Char) ++ nlTick3 ++ w2 = '\n' :: (tick3 ++ w2) := by
      rw [nlTick3_eq_cons]; simp
    rw [hshape, findFenceEnd]
    have hp : nlTick3.isPrefixOf ('\n' :: (tick3 ++ w2)) = true := by
      rw [ List.isPrefixOf_iff_prefix, nlTick3_eq_cons]
      exact ⟨w2, by simp⟩
    have hdrop : (('\n' : Char) :: (tick3 ++ w2)).drop 4 = w2 := by
      have h4 : (('\n' : Char) :: (tick3 ++ w2)) = nlTick3 ++ w2 := by
        rw [nlTick3_eq_cons]; simp
      rw [h4]
      exact List.drop_left' (by decide)
    rw [hp, hdrop, hw2]
    rfl
  | x :: inner', hinf => by
    have hshape : (x :: inner') ++ nlTick3 ++ w2 = x :: (inner' ++ nlTick3 ++ w2) := by
      simp
    rw [hshape, findFenceEnd]
    have hnp : nlTick3.isPrefixOf (x :: (inner' ++ nlTick3 ++ w2)) = false := by
      rw [Bool.eq_false_iff]
      intro hpb
      have hpre : nlTick3 <+: (x :: inner') ++ (nlTick3 ++ w2) := by
        rw [ List.isPrefixOf_iff_prefix] at hpb
        simpa [List.append_assoc] using hpb
      by_cases hlen : nlTick3.length ≤ (x :: inner').length
      · exact hinf (prefix_of_append_left hpre hlen).isInfix
      · rw [nlTick3_eq_cons] at hpre
        exact span_clash (by decide) (by simp) (by rw [nlTick3_eq_cons] at hlen; omega)
          hpre
    rw [hnp]
    have hrec := @findFenceEnd_append w2 hw2 inner'
      (fun h => hinf ( List.infix_cons h))
    simp only [Bool.false_and, Bool.false_eq_true, if_false]
    rw [hrec]

theorem tick3_head_not_space : ∀ {X : List Char},
    (tick3 ++ X).dropWhile jsSpace = tick3 ++ X := by
  intro X
  have h : tick3 = Char.ofNat 96 :: (Char.ofNat 96 :: Char.ofNat 96 :: []) := by decide
  rw [h, List.cons_append, List.dropWhile_cons_of_neg (by decide)]

/-- The anchored fence regex matches a whole content of the fenced shape and
captures exactly the inner text. -/
theorem matchFence_fenced {w1 tag inner w2 : List Char}
    (hw1 : w1.all jsSpace = true) (htag : tag.all isLowerAlpha = true)
    (hw2 : w2.all jsSpace = true) (hinner : ¬ (nlTick3 <:+: inner)) :
    matchFence (w1 ++ tick3 ++ tag ++ ('\n' :: inner) ++ nlTick3 ++ w2)
      = some inner := by
  have hshape : w1 ++ tick3 ++ tag ++ ('\n' :: inner) ++ nlTick3 ++ w2
      = w1 ++ (tick3 ++ (tag ++ '\n' :: (inner ++ nlTick3 ++ w2))) := by
    simp [List.append_assoc]
  rw [hshape]
  unfold matchFence
  have hdw1 : (w1 ++ (tick3 ++ (tag ++ '\n' :: (inner ++ nlTick3 ++ w2)))).dropWhile
      jsSpace = tick3 ++ (tag ++ '\n' :: (inner ++ nlTick3 ++ w2)) := by
    rw [List.dropWhile_append_of_pos (by simpa [List.all_eq_true] using hw1)]
    exact tick3_head_not_space
  rw [hdw1]
  have hpre : tick3.isPrefixOf (tick3 ++ (tag ++ '\n' :: (inner ++ nlTick3 ++ w2)))
      = true := by
    rw [ List.isPrefixOf_iff_prefix]
    exact ⟨_, rfl⟩
  rw [if_pos hpre]
  have hdrop3 : (tick3 ++ (tag ++ '\n' :: (inner ++ nlTick3 ++ w2))).drop 3
      = tag ++ '\n' :: (inner ++ nlTick3 ++ w2) :=
    List.drop_left' (by decide)
  have htagall : ∀ a ∈ tag, isLowerAlpha a = true := by
    simpa [List.all_eq_true] using htag
  have htw : (tag ++ '\n' :: (inner ++ nlTick3 ++ w2)).takeWhile isLowerAlpha = tag := by
    rw [List.takeWhile_append_of_pos htagall, List.takeWhile_cons_of_neg (by decide)]
    simp
  have hdw : (tag ++ '\n' :: (inner ++ nlTick3 ++ w2)).dropWhile isLowerAlpha
      = '\n' :: (inner ++ nlTick3 ++ w2) := by
    rw [List.dropWhile_append_of_pos htagall, List.dropWhile_cons_of_neg (by decide)]
  dsimp only
  rw [hdrop3, hdw]
  dsimp only
  rw [if_pos rfl]
  exact findFenceEnd_append hw2 hinner

/-- Content with no fence delimiter anywhere does not match the fence regex. -/
theorem matchFence_none {c : List Char} (h : ¬ (tick3 <:+: c)) :
    matchFence c = none := by
  unfold matchFence
  have hnp : tick3.isPrefixOf (c.dropWhile jsSpace) = false := by
    rw [Bool.eq_false_iff]
    intro hpb
    rw [ List.isPrefixOf_iff_prefix] at hpb
    exact h (hpb.isInfix.trans (List.dropWhile_suffix jsSpace).isInfix)
  dsimp only
  rw [hnp]
  rfl

/-- Claim C3 (amended): for every captured block of the whole-project parser,
if the content is wrapped in a markdown fence (optional lowercase language
tag) the returned content is the inner text trimmed of leading and trailing
whitespace; if the captured content contains no fence delimiter it is
returned trimmed of leading and trailing whitespace (the parser trims in
both cases; apart from fence stripping and trimming the content is
unchanged). -/
theorem spec_fence_stripping (w1 tag inner w2 c : List Char)
    (hw1 : w1.all jsSpace = true) (htag : tag.all isLowerAlpha = true)
    (hw2 : w2.all jsSpace = true) (hinner : ¬ (nlTick3 <:+: inner))
    (hc : ¬ (tick3 <:+: c)) :
    processContent (w1 ++ tick3 ++ tag ++ ('\n' :: inner) ++ nlTick3 ++ w2)
      = trimChars inner ∧
    processContent c = trimChars c := by
  constructor
  · rw [processContent, matchFence_fenced hw1 htag hw2 hinner]
  · rw [processContent, matchFence_none hc]

/-- Counterexample to claim C3 as stated: a captured block whose content is
not fence-wrapped is not returned untouched — the parser trims it.  The
block for path `a` with captured content consisting of `x` surrounded by
spaces yields content `x`, not the captured text. -/
theorem spec_fence_stripping_cex :
    parseAIResponse (renderBlock "a".data " x ".data)
      = [⟨"a".data, "x".data⟩] ∧ "x".data ≠ " x ".data := by
  constructor
  · have hm : matchOne (renderBlock "a".data " x ".data ++ [])
        = some ("a".data, " x ".data, []) :=
      matchOne_block (by decide) (by decide) (by decide)
    rw [List.append_nil] at hm
    rw [parseAIResponse, parseLoop_eq_some hm, parseLoop_nil]
    decide
  · decide

/-- Concrete instance of the amended claim C3: a fenced content yields the
trimmed inner text, an unfenced content yields the trimmed captured text. -/
theorem spec_fence_stripping_witness :
    processContent ("  ".data ++ tick3 ++ "json".data ++ ('\n' :: "null ".data)
        ++ nlTick3 ++ " ".data) = trimChars "null ".data ∧
    processContent "plain text content".data = trimChars "plain text content".data :=
  spec_fence_stripping "  ".data "json".data "null ".data " ".data
    "plain text content".data (by decide) (by decide) (by decide) (by decide) (by decide)

theorem lastTickSplit_append : ∀ (y : List Char), lastTickSplit (y ++ tick3) = some y
  | [] => by
    rw [List.nil_append]
    decide
  | a :: y' => by
    rw [List.cons_append, lastTickSplit, lastTickSplit_append y']

theorem greedyContent_append {i0 : Char} {inner' : List Char} :
    greedyContent ((i0 :: inner') ++ tick3) = some (i0 :: inner') := by
  rw [List.cons_append, greedyContent, lastTickSplit_append]
  rfl

theorem matchCodeAt_fenced {tag inner : List Char}
    (htag1 : tag ≠ []) (htag : tag.all isWordChar = true) (hinner : inner ≠ []) :
    matchCodeAt (tick3 ++ tag ++ ('\n' :: inner) ++ tick3) = some inner := by
  have hshape : tick3 ++ tag ++ ('\n' :: inner) ++ tick3
      = tick3 ++ (tag ++ '\n' :: (inner ++ tick3)) := by
    simp [List.append_assoc]
  rw [hshape]
  unfold matchCodeAt
  have hpre : tick3.isPrefixOf (tick3 ++ (tag ++ '\n' :: (inner ++ tick3))) = true := by
    rw [ List.isPrefixOf_iff_prefix]
    exact ⟨_, rfl⟩
  rw [if_pos hpre]
  have hdrop3 : (tick3 ++ (tag ++ '\n' :: (inner ++ tick3))).drop 3
      = tag ++ '\n' :: (inner ++ tick3) :=
    List.drop_left' (by decide)
  have htagall : ∀ a ∈ tag, isWordChar a = true := by
    simpa [List.all_eq_true] using htag
  have htw : (tag ++ '\n' :: (inner ++ tick3)).takeWhile isWordChar = tag := by
    rw [List.takeWhile_append_of_pos htagall, List.takeWhile_cons_of_neg (by decide)]
    simp
  have hdw : (tag ++ '\n' :: (inner ++ tick3)).dropWhile isWordChar
      = '\n' :: (inner ++ tick3) := by
    rw [List.dropWhile_append_of_pos htagall, List.dropWhile_cons_of_neg (by decide)]
  dsimp only
  rw [hdrop3, htw, hdw]
  cases tag with
  | nil => exact absurd rfl htag1
  | cons t0 tag' =>
    cases inner with
    | nil => exact absurd rfl hinner
    | cons i0 inner' =>
      dsimp only
      rw [if_pos rfl, greedyContent_append]

theorem findCode_of_head {t g : List Char} (hne : t ≠ [])
    (h : matchCodeAt t = some g) : findCode t = some g := by
  cases t with
  | nil => exact absurd rfl hne
  | cons x xs => simp only [findCode, h]

theorem matchCodeAt_none {s : List Char} (h : ¬ (tick3 <:+: s)) :
    matchCodeAt s = none := by
  unfold matchCodeAt
  have hnp : tick3.isPrefixOf s = false := by
    rw [Bool.eq_false_iff]
    intro hpb
    rw [ List.isPrefixOf_iff_prefix] at hpb
    exact h hpb.isInfix
  rw [hnp]
  rfl

theorem findCode_none : ∀ {s : List Char}, ¬ (tick3 <:+: s) → findCode s = none
  | [], _ => rfl
  | x :: xs, h => by
    rw [findCode, matchCodeAt_none (fun hi => h hi)]
    exact findCode_none (fun hi => h ( List.infix_cons hi))

/-- Claim C4: the per-file parser is total (a Lean function by construction).
Given response text that is exactly one fenced code block with a language
tag, it returns only the trimmed inner text; given text containing no fence
delimiter at all, it returns the trimmed input text. -/
theorem spec_perFile_code_extraction (tag inner text : List Char)
    (htag1 : tag ≠ []) (htag : tag.all isWordChar = true) (hinner : inner ≠ [])
    (htext : ¬ (tick3 <:+: text)) :
    parseCodeFromResponse (tick3 ++ tag ++ ('\n' :: inner) ++ tick3)
      = trimChars inner ∧
    parseCodeFromResponse text = trimChars text := by
  constructor
  · rw [parseCodeFromResponse,
      findCode_of_head (by simp [tick3]) (matchCodeAt_fenced htag1 htag hinner)]
  · rw [parseCodeFromResponse, findCode_none htext]

/-- Concrete instance of claim C4: a fenced reply yields the inner code
trimmed, an unfenced reply is returned trimmed. -/
theorem spec_perFile_code_extraction_witness :
    parseCodeFromResponse (tick3 ++ "js".data ++ ('\n' :: "let x = 1;\n".data) ++ tick3)
      = trimChars "let x = 1;\n".data ∧
    parseCodeFromResponse "const a = 2;".data = trimChars "const a = 2;".data :=
  spec_perFile_code_extraction "js".data "let x = 1;\n".data "const a = 2;".data
    (by decide) (by decide) (by decide) (by decide)

theorem finallyCleanup_eq_false : ∀ b : Bool, finallyCleanup b = false := by decide

/-- Claim C5: in per-file mode, a file whose model invocation throws is
caught: that file keeps its original content in the repacked tree, the other
files are processed independently (the pass is a pointwise map), and the
request still succeeds with an archive response — never a request-level
error. -/
theorem spec_perFile_failure_isolation (ts : List Char) (files : List SrcFile)
    (invoke : List Char → Except Unit (List Char)) (i : Nat) (hi : i < files.length)
    (herr : invoke (perFilePrompt ts (files.get ⟨i, hi⟩)) = .error ()) :
    (perFileHandler true true (some ts) true (.ok files) invoke).resp
      = .zipTree (convertTree invoke ts files) ∧
    (convertTree invoke ts files).get ⟨i, by simpa [convertTree] using hi⟩
      = files.get ⟨i, hi⟩ ∧
    ∀ n msg, (perFileHandler true true (some ts) true (.ok files) invoke).resp
      ≠ .errorJson n msg := by
  refine ⟨?_, ?_, ?_⟩
  · simp [perFileHandler]
  · simp only [convertTree, List.get_eq_getElem, List.getElem_map]
    by_cases hcode : isCodeFile (files[i].path) = true
    · rw [if_pos hcode, processFilePerFile]
      by_cases hblank : trimChars (files[i].content) = []
      · rw [if_pos hblank]
      · rw [if_neg hblank]
        have herr' : invoke (perFilePrompt ts files[i]) = .error () := by
          simpa [List.get_eq_getElem] using herr
        rw [herr']
    · rw [if_neg hcode]
  · intro n msg
    simp [perFileHandler]

/-- Concrete instance of claim C5: two files, the first one's invocation
throws; the archive keeps the first file unchanged and the request succeeds. -/
theorem spec_perFile_failure_isolation_witness :
    (fun pr => if pr = perFilePrompt "Vue".data ⟨"src/a.js".data, "let a = 1;".data⟩
        then (.error () : Except Unit (List Char)) else .ok "```js\nlet b = 2;\n```".data)
      (perFilePrompt "Vue".data
        (([⟨"src/a.js".data, "let a = 1;".data⟩,
           ⟨"src/b.js".data, "let b = 1;".data⟩] : List SrcFile).get ⟨0, by decide⟩))
      = .error () ∧
    (convertTree
      (fun pr => if pr = perFilePrompt "Vue".data ⟨"src/a.js".data, "let a = 1;".data⟩
        then (.error () : Except Unit (List Char)) else .ok "```js\nlet b = 2;\n```".data)
      "Vue".data
      [⟨"src/a.js".data, "let a = 1;".data⟩, ⟨"src/b.js".data, "let b = 1;".data⟩]).get
        ⟨0, by simp [convertTree]⟩
      = ⟨"src/a.js".data, "let a = 1;".data⟩ := by
  have h := spec_perFile_failure_isolation "Vue".data
    [⟨"src/a.js".data, "let a = 1;".data⟩, ⟨"src/b.js".data, "let b = 1;".data⟩]
    (fun pr => if pr = perFilePrompt "Vue".data ⟨"src/a.js".data, "let a = 1;".data⟩
      then (.error () : Except Unit (List Char)) else .ok "```js\nlet b = 2;\n```".data)
    0 (by decide) (by simp)
  exact ⟨by simp, h.2.1⟩

/-- Claim C6: for every request, after the handler finishes the scratch
workspace directory no longer exists — the recursive deletion of the
`finally` block runs on every exit path, and the validation paths never
create it in the first place.  This holds for both variants. -/
theorem spec_workspace_cleanup (k u m : Bool) (tsk : Option (List Char))
    (er : Except Bool (List SrcFile))
    (model invoke : List Char → Except Unit (List Char)) :
    (wholeProjectHandler k u tsk er model).wsExistsAfter = false ∧
    (perFileHandler k u tsk m er invoke).wsExistsAfter = false := by
  constructor
  · unfold wholeProjectHandler
    cases k <;> cases u <;> simp
    cases tsk <;> simp [finallyCleanup_eq_false]
  · unfold perFileHandler
    cases k <;> cases u <;> simp
    cases tsk <;> cases m <;> simp [finallyCleanup_eq_false]

/-- Claim C7: on a configured server, a request missing the upload field or
missing the target-stack field gets a 400 JSON error from the eager
validation, and no scratch workspace directory is ever created for it, in
both variants. -/
theorem spec_validation_before_workspace (u m : Bool) (tsk : Option (List Char))
    (er : Except Bool (List SrcFile))
    (model invoke : List Char → Except Unit (List Char))
    (hmiss : u = false ∨ tsk = none) :
    (∃ msg, (wholeProjectHandler true u tsk er model).resp = .errorJson 400 msg) ∧
    (wholeProjectHandler true u tsk er model).wsCreated = false ∧
    (∃ msg, (perFileHandler true u tsk m er invoke).resp = .errorJson 400 msg) ∧
    (perFileHandler true u tsk m er invoke).wsCreated = false := by
  rcases hmiss with hu | hts
  · subst hu
    exact ⟨⟨_, rfl⟩, rfl, ⟨_, rfl⟩, rfl⟩
  · subst hts
    cases u
    · exact ⟨⟨_, rfl⟩, rfl, ⟨_, rfl⟩, rfl⟩
    · exact ⟨⟨_, rfl⟩, rfl, ⟨_, rfl⟩, rfl⟩

/-- Concrete instance of claim C7: a request with an upload but no target
stack gets 400 errors and no workspace in both variants. -/
theorem spec_validation_before_workspace_witness :
    (∃ msg, (wholeProjectHandler true true none (.ok [])
      (fun _ => .ok [])).resp = .errorJson 400 msg) ∧
    (wholeProjectHandler true true none (.ok []) (fun _ => .ok [])).wsCreated = false ∧
    (∃ msg, (perFileHandler true true none true (.ok [])
      (fun _ => .ok [])).resp = .errorJson 400 msg) ∧
    (perFileHandler true true none true (.ok []) (fun _ => .ok [])).wsCreated = false :=
  spec_validation_before_workspace true true none (.ok [])
    (fun _ => .ok []) (fun _ => .ok []) (Or.inr rfl)

/-- Join a root directory with a chain of path components. -/
def joinComps (dir : List Char) : List (List Char) → List Char
  | [] => dir
  | c :: cs => joinComps (pathJoin dir c) cs

/-- Claim C9: the file-discovery walk never yields a path lying under a
directory named `node_modules` or `.git` at any depth: every yielded path
extends the walk root by a nonempty chain of components whose directory
components (all but the final file name) avoid both names. -/
theorem spec_walk_skips_banned_dirs (entries : FSEntries) :
    ∀ (dir p : List Char), p ∈ getAllFilePaths dir entries →
      ∃ comps : List (List Char), comps ≠ [] ∧ p = joinComps dir comps ∧
        ∀ c ∈ comps.dropLast, c ≠ "node_modules".data ∧ c ≠ ".git".data := by
  induction entries with
  | nil =>
    intro dir p hp
    simp [getAllFilePaths] at hp
  | consFile n rest ih =>
    intro dir p hp
    rw [getAllFilePaths] at hp
    rcases List.mem_cons.mp hp with hhead | htail
    · exact ⟨[n], by simp, by simpa [joinComps] using hhead, by simp⟩
    · exact ih dir p htail
  | consDir n children rest ihc ihr =>
    intro dir p hp
    rw [getAllFilePaths] at hp
    rcases List.mem_append.mp hp with hchild | htail
    · by_cases hok : n ≠ "node_modules".data ∧ n ≠ ".git".data
      · rw [if_pos hok] at hchild
        obtain ⟨comps', hne, hpeq, hban⟩ := ihc (pathJoin dir n) p hchild
        refine ⟨n :: comps', by simp, by simpa [joinComps] using hpeq, ?_⟩
        intro c hc
        rw [List.dropLast_cons_of_ne_nil hne] at hc
        rcases List.mem_cons.mp hc with hcn | hcd
        · exact hcn ▸ hok
        · exact hban c hcd
      · rw [if_neg hok] at hchild
        simp at hchild
    · exact ihr dir p htail

/-- Concrete instance of claim C9: a tree with a `node_modules` subtree
yields only the paths outside it, each decomposing into unbanned directory
components. -/
theorem spec_walk_skips_banned_dirs_witness :
    "work/source".data ++ "/src/a.js".data ∈
      getAllFilePaths "work/source".data
        (.consDir "src".data (.consFile "a.js".data .nil)
          (.consDir "node_modules".data (.consFile "dep.js".data .nil) .nil)) ∧
    ∃ comps : List (List Char), comps ≠ [] ∧
      "work/source".data ++ "/src/a.js".data = joinComps "work/source".data comps ∧
      ∀ c ∈ comps.dropLast, c ≠ "node_modules".data ∧ c ≠ ".git".data := by
  have hmem : "work/source".data ++ "/src/a.js".data ∈
      getAllFilePaths "work/source".data
        (.consDir "src".data (.consFile "a.js".data .nil)
          (.consDir "node_modules".data (.consFile "dep.js".data .nil) .nil)) := by
    decide
  exact ⟨hmem, spec_walk_skips_banned_dirs _ _ _ hmem⟩

/-- Claim C8: a file with non-blank content whose extension (case-sensitive,
leading dot included) is not in the allow-list is excluded by the code-file
filter of both variants; every whole-project context entry and every
per-file prompt is built from an allow-listed non-blank file; and in
per-file mode the excluded file's bytes in the output tree are identical to
the original. -/
theorem spec_disallowed_extension_untouched (files : List SrcFile) (f : SrcFile)
    (ts : List Char) (invoke : List Char → Except Unit (List Char))
    (hmem : f ∈ files) (hne : trimChars f.content ≠ [])
    (hext : isCodeFile f.path = false) :
    f ∉ files.filter (fun g => isCodeFile g.path) ∧
    (∀ e ∈ projectContext files, ∃ g ∈ files, isCodeFile g.path = true ∧
      trimChars g.content ≠ [] ∧ e = contextEntry g) ∧
    (∀ pr ∈ perFilePromptsSent ts files, ∃ g ∈ files, isCodeFile g.path = true ∧
      trimChars g.content ≠ [] ∧ pr = perFilePrompt ts g) ∧
    (∀ (i : Nat) (h : i < files.length), files.get ⟨i, h⟩ = f →
      (convertTree invoke ts files).get ⟨i, by simpa [convertTree] using h⟩ = f) := by
  refine ⟨?_, ?_, ?_, ?_⟩
  · intro hin
    rw [List.mem_filter] at hin
    rw [hext] at hin
    exact absurd hin.2 (by simp)
  · intro e he
    simp only [projectContext, List.mem_filterMap, List.mem_filter] at he
    obtain ⟨g, ⟨hgmem, hgcode⟩, hge⟩ := he
    by_cases hb : trimChars g.content = []
    · rw [if_pos hb] at hge
      simp at hge
    · rw [if_neg hb] at hge
      injection hge with h1
      exact ⟨g, hgmem, hgcode, hb, h1.symm⟩
  · intro pr hpr
    simp only [perFilePromptsSent, List.mem_filterMap, List.mem_filter] at hpr
    obtain ⟨g, ⟨hgmem, hgcode⟩, hge⟩ := hpr
    by_cases hb : trimChars g.content = []
    · rw [if_pos hb] at hge
      simp at hge
    · rw [if_neg hb] at hge
      injection hge with h1
      exact ⟨g, hgmem, hgcode, hb, h1.symm⟩
  · intro i h hif
    simp only [convertTree, List.get_eq_getElem, List.getElem_map]
    rw [List.get_eq_getElem] at hif
    rw [hif, if_neg (by simp [hext])]

/-- Concrete instance of claim C8: a non-empty `.png` file is filtered out
and survives the per-file pass byte-identical. -/
theorem spec_disallowed_extension_untouched_witness :
    isCodeFile "assets/logo.png".data = false ∧
    (⟨"assets/logo.png".data, "PNGDATA".data⟩ : SrcFile) ∉
      ([⟨"assets/logo.png".data, "PNGDATA".data⟩, ⟨"src/a.js".data, "let a;".data⟩] :
        List SrcFile).filter (fun g => isCodeFile g.path) ∧
    (convertTree (fun _ => .ok "converted".data) "Vue".data
      [⟨"assets/logo.png".data, "PNGDATA".data⟩, ⟨"src/a.js".data, "let a;".data⟩]).get
      ⟨0, by simp [convertTree]⟩ = ⟨"assets/logo.png".data, "PNGDATA".data⟩ := by
  have h := spec_disallowed_extension_untouched
    [⟨"assets/logo.png".data, "PNGDATA".data⟩, ⟨"src/a.js".data, "let a;".data⟩]
    ⟨"assets/logo.png".data, "PNGDATA".data⟩ "Vue".data (fun _ => .ok "converted".data)
    (by decide) (by decide) (by decide)
  exact ⟨by decide, h.1, h.2.2.2 0 (by decide) (by decide)⟩

theorem parseLoop_paths_nonspace :
    ∀ (n : Nat) (text : List Char), text.length ≤ n →
      ∀ pc ∈ parseLoop text, ∀ a ∈ pc.1, jsSpace a = false := by
  intro n
  induction n with
  | zero =>
    intro text hlen pc hpc
    have : text = [] := List.length_eq_zero.mp (Nat.le_zero.mp hlen)
    rw [this, parseLoop_nil] at hpc
    simp at hpc
  | succ n ih =>
    intro text hlen pc hpc
    cases text with
    | nil =>
      rw [parseLoop_nil] at hpc
      simp at hpc
    | cons x xs =>
      cases hm : matchOne (x :: xs) with
      | some v =>
        obtain ⟨p, c, r⟩ := v
        rw [parseLoop_eq_some hm] at hpc
        rcases List.mem_cons.mp hpc with hhead | htail
        · obtain ⟨_, _, hps⟩ := matchOne_some_shape hm
          intro a ha
          rw [hhead] at ha
          exact hps a ha
        · have hr : r.length ≤ n := by
            have h1 := matchOne_rest_length hm
            have h2 : (x :: xs).length = xs.length + 1 := by simp
            omega
          exact ih r hr pc htail
      | none =>
        rw [parseLoop_eq_none hm] at hpc
        exact ih xs (by simpa using Nat.le_of_succ_le_succ hlen) pc hpc

theorem space_run_unique {p1 p A B : List Char} {x y : Char}
    (h : p1 ++ (x :: A) = p ++ (y :: B))
    (hp1 : ∀ a ∈ p1, jsSpace a = false) (hx : jsSpace x = true)
    (hp : ∀ a ∈ p, jsSpace a = false) (hy : jsSpace y = true) :
    p1 = p ∧ x = y := by
  have h1 : (p1 ++ (x :: A)).takeWhile (fun c => !jsSpace c) = p1 := by
    rw [List.takeWhile_append_of_pos (by intro a ha; simp [hp1 a ha]),
      List.takeWhile_cons_of_neg (by simp [hx])]
    simp
  have h2 : (p ++ (y :: B)).takeWhile (fun c => !jsSpace c) = p := by
    rw [List.takeWhile_append_of_pos (by intro a ha; simp [hp a ha]),
      List.takeWhile_cons_of_neg (by simp [hy])]
    simp
  have hpp : p1 = p := by rw [← h1, h, h2]
  subst hpp
  have htails := (List.append_right_inj p1).mp h
  injection htails with hxy _
  exact ⟨rfl, hxy⟩

/-- No start-marker occurrence except possibly the leading one, derived from
the absence of the marker past the first character. -/
theorem unique_marker_of_clean_tail {t : List Char}
    (h : ¬ (startMarker <:+: t.drop 1)) :
    ∀ pre post, t = pre ++ startMarker ++ post → pre = [] := by
  intro pre post heq
  cases pre with
  | nil => rfl
  | cons a pre' =>
    exfalso
    apply h
    rw [heq]
    have hdrop : (((a :: pre') ++ startMarker) ++ post).drop 1
        = (pre' ++ startMarker) ++ post := by
      simp
    rw [hdrop]
    exact ⟨pre', post, by simp [List.append_assoc]⟩

/-- Claim C10: every entry returned by the whole-project parser has a path
free of whitespace characters, and a delimited block whose start-line path
field contains a space yields no entry at all (the path capture matches only
non-whitespace runs, and the character after the captured run is then a
space rather than the required newline). -/
theorem spec_paths_have_no_whitespace :
    (∀ (text : List Char) (cf : ConvertedFile), cf ∈ parseAIResponse text →
      ∀ a ∈ cf.path, jsSpace a = false) ∧
    (∀ (p1 rest : List Char), p1 ≠ [] → (∀ a ∈ p1, jsSpace a = false) →
      (∀ pre post, startMarker ++ (p1 ++ (' ' :: rest)) = pre ++ startMarker ++ post →
        pre = []) →
      parseAIResponse (startMarker ++ (p1 ++ (' ' :: rest))) = []) := by
  constructor
  · intro text cf hcf
    rw [parseAIResponse] at hcf
    obtain ⟨pc, hpc, hcfe⟩ := List.mem_map.mp hcf
    have := parseLoop_paths_nonspace text.length text (Nat.le_refl _) pc hpc
    intro a ha
    rw [← hcfe] at ha
    exact this a ha
  · intro p1 rest hp1 hp1s hocc
    by_contra hne
    have hloop : parseLoop (startMarker ++ (p1 ++ (' ' :: rest))) ≠ [] := by
      intro h0
      apply hne
      rw [parseAIResponse, h0]
      rfl
    obtain ⟨pre, p, mid, post, hpn, hps, hshape⟩ :=
      hasDelimitedBlock_of_parseLoop_ne_nil hloop
    have hpre : pre = [] := hocc pre (p ++ ('\n' :: mid) ++ endMarker p ++ post)
      (by rw [hshape]; simp [List.append_assoc])
    subst hpre
    rw [List.nil_append] at hshape
    have hshape' : startMarker ++ (p1 ++ (' ' :: rest))
        = startMarker ++ (p ++ ('\n' :: (mid ++ endMarker p ++ post))) := by
      rw [hshape]
      simp [List.append_assoc]
    have heq := (List.append_right_inj startMarker).mp hshape'
    have := space_run_unique heq hp1s (by decide) hps (by decide)
    exact absurd this.2 (by decide)

/-- Concrete instance of claim C10: parsed paths carry no whitespace; a block
whose path field contains a space produces no entry. -/
theorem spec_paths_have_no_whitespace_witness :
    (∀ a ∈ (⟨"a.js".data, "x".data⟩ : ConvertedFile).path, jsSpace a = false) ∧
    parseAIResponse (startMarker ++ ("my".data ++ (' ' ::
      "file.txt\nhello\n// END_FILE: my file.txt".data))) = [] := by
  constructor
  · intro a ha
    have hm : matchOne (renderBlock "a.js".data "x".data ++ [])
        = some ("a.js".data, "x".data, []) :=
      matchOne_block (by decide) (by decide) (by decide)
    rw [List.append_nil] at hm
    have hmem : (⟨"a.js".data, "x".data⟩ : ConvertedFile)
        ∈ parseAIResponse (renderBlock "a.js".data "x".data) := by
      rw [parseAIResponse, parseLoop_eq_some hm, parseLoop_nil]
      decide
    exact spec_paths_have_no_whitespace.1 _ _ hmem a ha
  · exact spec_paths_have_no_whitespace.2 "my".data
      "file.txt\nhello\n// END_FILE: my file.txt".data
      (by decide) (by decide)
      (unique_marker_of_clean_tail (by decide))
